import Mathlib

/-!
Verification of the dependency-reference resolution engine of `gha-enforce-sha`
against its natural-language specification.

The development is a shallow embedding of the Python sources
`gha_enforce_sha/main.py`, `gha_enforce_sha/git.py` and
`gha_enforce_sha/errors.py`.  Python strings are modelled as `List Char`,
Python exceptions as an explicit `Except` result, the external git backend as
an abstract tag table together with the backend's native version ordering, and
the commands issued to git as an explicit trace so that fetch/resolution
counts are part of the model.
-/

/-- Python strings are modelled as lists of characters. -/
abbrev Str := List Char

/-- Python's `s.startswith(pat)`. -/
def strStartsWith : Str → Str → Bool
  | _, [] => true
  | [], _ :: _ => false
  | c :: s, p :: ps => c == p && strStartsWith s ps

/-- Split a string at the first occurrence of `sep`: `none` when `sep` does not
occur, otherwise the part before and the part after the separator.  This is
Python's `s.split(sep, 1)` (which returns one or two parts). -/
def splitFirstAt (sep : Char) : Str → Option (Str × Str)
  | [] => none
  | c :: cs =>
    if c = sep then some ([], cs)
    else
      match splitFirstAt sep cs with
      | none => none
      | some (l, r) => some (c :: l, r)

/-- Errors of `errors.py`: `UserError` is printed as `Error: <msg>` with exit
code 1; any other exception is the unexpected/internal case with exit code 2. -/
inductive AppExc where
  | userError (msg : Str)
  | otherError (msg : Str)
  deriving Repr, DecidableEq

/-- `errors.py::log_error`: maps an exception to (exit code, message).  The
internal-error message is abridged to its fixed prefix (the real one appends a
traceback, which has no counterpart in a pure model). -/
def log_error : AppExc → Nat × Str
  | .userError m => (1, "Error: ".data ++ m)
  | .otherError m => (2, "Fatal: unexpected error: ".data ++ m)

/-- `main.py::_ACTION_VERSION_SEP`. -/
def actionVersionSep : Char := '@'

/-- `main.py::ActionVersion`: a dependency reference split into the action
path and the optional version (`none` when the raw string had no `@`). -/
structure ActionVersion where
  path : Str
  version : Option Str
  deriving Repr, DecidableEq

/-- `main.py::ActionVersion.to_str`.  (When the version is present the Python
code renders `f"{path}@{version or ''}"`; `version or ''` equals `version`
for every string, including the empty one.) -/
def ActionVersion.to_str : ActionVersion → Str
  | ⟨p, some v⟩ => p ++ actionVersionSep :: v
  | ⟨p, none⟩ => p

/-- `main.py::ActionVersion.parse`: split the raw reference on the first `@`. -/
def ActionVersion.parse (raw : Str) : ActionVersion :=
  match splitFirstAt actionVersionSep raw with
  | none => ⟨raw, none⟩
  | some (p, v) => ⟨p, some v⟩

/-- `main.py::Location`: (line, col) metadata of the `uses` value, as reported
by the YAML parser (`step.lc.value("uses")`). -/
structure Location where
  line : Nat
  col : Nat
  deriving Repr, DecidableEq

/-- One step of a job: the optional `uses` value together with the parser's
position metadata for it.  The YAML parser itself is out of scope (a black
box); a step is modelled by exactly the two pieces of data the code reads. -/
structure Step where
  uses : Option Str
  usesLoc : Location
  deriving Repr, DecidableEq

/-- One job: the optional `steps` list (`none` models a job mapping with no
`steps` key). -/
structure Job where
  steps : Option (List Step)
  deriving Repr, DecidableEq

/-- A loaded YAML document, reduced to the two top-level keys the scanner
looks at: `jobs` (workflow shape) and `runs` (action shape), each an ordered
mapping of job name to job. -/
structure Document where
  jobs : Option (List (Str × Job))
  runs : Option (List (Str × Job))

/-- `main.py::MissingSHA`: one occurrence of an unpinned reference. -/
structure MissingSHA where
  path : Str
  job_name : Str
  step_index : Nat
  location : Location
  action_version : ActionVersion
  deriving Repr, DecidableEq

/-- `main.py::_is_local`: the reference starts with `.` or `/`. -/
def is_local (workflow_reference : Str) : Bool :=
  strStartsWith workflow_reference ['.'] || strStartsWith workflow_reference ['/']

/-- `main.py::_is_docker`: the reference starts with `docker://`. -/
def is_docker (workflow_reference : Str) : Bool :=
  strStartsWith workflow_reference "docker://".data

/-- `main.py::_parse_action`: skip steps without `uses` and local/docker
references; parse everything else. -/
def parse_action (step : Step) : Option ActionVersion :=
  match step.uses with
  | none => none
  | some uses =>
    if is_local uses || is_docker uses then none
    else some (ActionVersion.parse uses)

/-- `main.py::_hex_digits = string.hexdigits.lower()`; `string.hexdigits` is
`"0123456789abcdefABCDEF"`, so lowering it repeats the lowercase letters. -/
def hexDigits : Str := "0123456789abcdefabcdef".data

/-- `main.py::_git_sha_length`. -/
def gitShaLength : Nat := 40

/-- `main.py::_is_complete_git_sha`. -/
def is_complete_git_sha (ref : Str) : Bool :=
  ref.length == gitShaLength && ref.all (fun c => hexDigits.contains c)

/-- The flagging condition of `main.py::_find_missing_shas` (lines 226-228):
a parsed remote reference is reported iff its version is absent or is not a
complete git SHA. -/
def needsPin (av : ActionVersion) : Bool :=
  match av.version with
  | none => true
  | some v => !is_complete_git_sha v

/-- The inner loop of `_find_missing_shas` over `enumerate(job["steps"])`. -/
def stepOccs (workflow_path job_name : Str) (steps : List Step) : List MissingSHA :=
  steps.enum.filterMap fun e =>
    match parse_action e.2 with
    | none => none
    | some av =>
      if needsPin av then
        some ⟨workflow_path, job_name, e.1, e.2.usesLoc, av⟩
      else none

/-- The outer loop of `_find_missing_shas` over `jobs.items()`: a job with no
`steps` key is skipped with `continue` (main.py lines 218-220). -/
def jobsOccs (workflow_path : Str) : List (Str × Job) → List MissingSHA
  | [] => []
  | (job_name, job) :: rest =>
    (match job.steps with
     | none => []
     | some steps => stepOccs workflow_path job_name steps)
      ++ jobsOccs workflow_path rest

/-- `main.py::_find_missing_shas`, with the generator forced into a list (the
callers materialize it with `tuple(...)` / iterate it to exhaustion). -/
def find_missing_shas (workflow_path : Str) (content : Document) :
    Except AppExc (List MissingSHA) :=
  match content.jobs with
  | some jobs => .ok (jobsOccs workflow_path jobs)
  | none =>
    match content.runs with
    | some jobs => .ok (jobsOccs workflow_path jobs)
    | none =>
      .error (.userError (workflow_path ++ " does not look like a workflow or action".data))

/-- The sixteen lowercase hexadecimal digits (the spec-side character class
used to phrase C6). -/
def lowercaseHexDigits : Str := "0123456789abcdef".data

/-- The git subprocess invocations of `git.py`, recorded as a trace so that
fetch and resolution counts are part of the model.  `initRepo` stands for the
`git init --bare` + `git remote add origin <url>` pair of
`init_repo_from_action`; `fetchTags pat` for
`git fetch --tags origin refs/tags/<pat>*:refs/tags/<pat>*`; `revParse r` for
`git rev-parse r`; `tagList pat` for
`git tag --list --sort=-version:refname <pat>*`. -/
inductive GitCmd where
  | initRepo (url : Str)
  | fetchTags (pat : Str)
  | revParse (ref : Str)
  | tagList (pat : Str)
  deriving Repr, DecidableEq

/-- `git rev-parse <name>` against a local tag table: the commit id of the tag
named `name`, `none` when the name does not resolve (non-zero exit). -/
def revParseTag (tags : List (Str × Str)) (name : Str) : Option Str :=
  (tags.find? (fun e => e.1 == name)).map (fun e => e.2)

/-- Insert into a list sorted in descending order of `le` (largest first). -/
def insertDesc (le : Str → Str → Bool) (x : Str) : List Str → List Str
  | [] => [x]
  | y :: ys => if le x y then y :: insertDesc le x ys else x :: y :: ys

/-- `git tag --list --sort=-version:refname`: the backend's native
version-descending sort, parameterized by the backend's version order `le`. -/
def sortDesc (le : Str → Str → Bool) : List Str → List Str
  | [] => []
  | x :: xs => insertDesc le x (sortDesc le xs)

/-- `git.py::resolve_tag`, returning the result together with the trace of
git commands the call performs.  `none` as the requested tag is replaced by
the empty string; the fetch materializes exactly the tags whose name starts
with the requested string; a non-empty request that resolves directly
(`git rev-parse` exit 0) short-circuits; otherwise the version-descending tag
listing decides, and an empty listing raises
`UserError("could not find any tag matching <tag>")`. -/
def resolve_tag (vle : Str → Str → Bool) (tags : List (Str × Str))
    (requestedTag : Option Str) : Except AppExc (Str × Str) × List GitCmd :=
  let p := requestedTag.getD []
  let fetched := tags.filter (fun e => strStartsWith e.1 p)
  let exactSha : Option Str := if p = [] then none else revParseTag fetched p
  let tr1 := GitCmd.fetchTags p :: (if p = [] then [] else [GitCmd.revParse p])
  match exactSha with
  | some sha => (.ok (p, sha), tr1)
  | none =>
    let names := sortDesc vle ((fetched.map (fun e => e.1)).filter (fun n => strStartsWith n p))
    let tr2 := tr1 ++ [GitCmd.tagList p]
    match names with
    | [] => (.error (.userError ("could not find any tag matching ".data ++ p)), tr2)
    | t :: _ =>
      match revParseTag fetched t with
      | some sha => (.ok (t, sha), tr2 ++ [GitCmd.revParse t])
      | none =>
        -- unreachable for a well-formed table: `t` names a fetched tag; the
        -- code's `must_run_git_cmd` would raise a UserError here
        (.error (.userError ("failed to run git command".data)), tr2 ++ [GitCmd.revParse t])

/-- One step of Python's `str.splitlines(keepends=True)`: the accumulated
current line is kept reversed; `\n`, `\r\n` and `\r` terminate a line (the
model restricts Python's terminator set to the `\n`/`\r` family, the only
terminators the repository's documents can contain). -/
def splitLinesAux (cur : Str) : Str → List Str
  | [] => if cur = [] then [] else [cur.reverse]
  | '\n' :: rest => (cur.reverse ++ ['\n']) :: splitLinesAux [] rest
  | '\r' :: '\n' :: rest => (cur.reverse ++ ['\r', '\n']) :: splitLinesAux [] rest
  | '\r' :: rest => (cur.reverse ++ ['\r']) :: splitLinesAux [] rest
  | c :: rest => splitLinesAux (c :: cur) rest

/-- Python's `content.splitlines(keepends=True)` (main.py line 81). -/
def splitLinesKeepEnds (s : Str) : List Str :=
  splitLinesAux [] s

/-- Python's `"".join(lines)` (main.py line 96). -/
def joinStrs : List Str → Str
  | [] => []
  | l :: ls => l ++ joinStrs ls

/-- The replacement text of main.py line 87:
`f"{new_version.to_str()}  # {full_tag}"` where `new_version` is the
occurrence's action path paired with the resolved commit id. -/
def newUsesText (actionPath sha fullTag : Str) : Str :=
  (ActionVersion.mk actionPath (some sha)).to_str ++ "  # ".data ++ fullTag

/-- The splice of main.py lines 88-93:
`orig_lines[line][:col] + new_line + orig_lines[line][-1]` — everything up to
the recorded column, the replacement text, then the *last character* of the
original line (the code's comment calls it "the original line ending").
Python raises an IndexError on an empty string; lines produced by
`splitlines(keepends=True)` are never empty, and on the empty list model
`List.drop` returns `[]`. -/
def spliceIntoLine (line : Str) (col : Nat) (newText : Str) : Str :=
  line.take col ++ newText ++ line.drop (line.length - 1)

/-- `main.py::_repo_url_from_action`: `path.split("/", maxsplit=2)`, keep the
first two segments, join them and prepend the host. -/
def splitLimit (sep : Char) : Nat → Str → List Str
  | 0, s => [s]
  | n + 1, s =>
    match splitFirstAt sep s with
    | none => [s]
    | some (l, r) => l :: splitLimit sep n r

/-- Python's `sep.join(parts)` for a one-character separator. -/
def joinSep (sep : Char) : List Str → Str
  | [] => []
  | [x] => x
  | x :: xs => x ++ sep :: joinSep sep xs

/-- `main.py::_repo_url_from_action`. -/
def repoUrlFromAction (path : Str) : Str :=
  "https://github.com/".data ++ joinSep '/' ((splitLimit '/' 2 path).take 2)

/-- One step of the `defaultdict(list)` accumulation of main.py lines 71-73:
append `v` to the entry of `key`, creating the entry at the end when absent. -/
def addToGroup (key : Str) (v : Option Str) :
    List (Str × List (Option Str)) → List (Str × List (Option Str))
  | [] => [(key, [v])]
  | (k, vs) :: rest =>
    if k = key then (k, vs ++ [v]) :: rest
    else (k, vs) :: addToGroup key v rest

/-- `repo_partial_tags` of main.py lines 71-73: group the requested versions
of every occurrence (duplicates included, in occurrence order) by action
path. -/
def repoRequestedTags (reps : List MissingSHA) : List (Str × List (Option Str)) :=
  reps.foldl (fun acc rep => addToGroup rep.action_version.path rep.action_version.version acc) []

/-- The loop of `main.py::_resolve_tags` over `partial_tags`: one
`resolve_tag` call per element (duplicates included), stopping at the first
failure.  The `resolved_tags` dict is modelled as an association list in
insertion order; a duplicate key repeats the same deterministic value, so
first-match lookup agrees with the dict's overwrite semantics.  Trace entries
are tagged with the action path that owns the transient repository. -/
def resolveTagsLoop (vle : Str → Str → Bool) (tags : List (Str × Str)) (action : Str) :
    List (Option Str) →
      Except AppExc (List ((Option Str) × (Str × Str))) × List (Str × GitCmd)
  | [] => (.ok [], [])
  | v :: vs =>
    let r := resolve_tag vle tags v
    let ttr := r.2.map (fun c => (action, c))
    match r.1 with
    | .error e => (.error e, ttr)
    | .ok fs =>
      let rest := resolveTagsLoop vle tags action vs
      (rest.1.map (fun m => (v, fs) :: m), ttr ++ rest.2)

/-- `main.py::_resolve_tags` over all groups (the `repo_resolved_tags` dict
comprehension of lines 75-78): for each action path, initialize a transient
repository pointed at the derived remote URL and resolve each requested
version; the first failure aborts the comprehension.  `world` maps a remote
URL to the tag table of that remote. -/
def resolveAllTags (vle : Str → Str → Bool) (world : Str → List (Str × Str)) :
    List (Str × List (Option Str)) →
      Except AppExc (List (Str × List ((Option Str) × (Str × Str)))) × List (Str × GitCmd)
  | [] => (.ok [], [])
  | (action, vs) :: rest =>
    let url := repoUrlFromAction action
    let r := resolveTagsLoop vle (world url) action vs
    let tr := (action, GitCmd.initRepo url) :: r.2
    match r.1 with
    | .error e => (.error e, tr)
    | .ok m =>
      let rr := resolveAllTags vle world rest
      (rr.1.map (fun ms => (action, m) :: ms), tr ++ rr.2)

/-- The double dict lookup `repo_resolved_tags[path][version]` of main.py
lines 83-85. -/
def lookupResolved (resolved : List (Str × List ((Option Str) × (Str × Str))))
    (action : Str) (version : Option Str) : Option (Str × Str) :=
  match resolved.find? (fun e => e.1 == action) with
  | none => none
  | some g => (g.2.find? (fun e => e.1 == version)).map (fun e => e.2)

/-- The per-file rewrite loop of main.py lines 82-93: splice every occurrence
into its recorded line.  A failed lookup is Python's `KeyError`, an
unexpected (exit-2) exception; it cannot happen for maps built by
`resolveAllTags` over the same occurrences. -/
def applyReps (resolved : List (Str × List ((Option Str) × (Str × Str))))
    (lines : List Str) : List MissingSHA → Except AppExc (List Str)
  | [] => .ok lines
  | rep :: rest =>
    match lookupResolved resolved rep.action_version.path rep.action_version.version with
    | none => .error (.otherError "KeyError".data)
    | some fs =>
      let newText := newUsesText rep.action_version.path fs.2 fs.1
      let line := lines.getD rep.location.line []
      applyReps resolved (lines.set rep.location.line (spliceIntoLine line rep.location.col newText)) rest

/-- The write loop of main.py lines 80-96: every scanned file is rewritten
and written back (the `open(path, "w")` sits in the per-file loop,
unconditionally).  Returns the loop outcome and the (path, content) writes
actually performed, in order; a failure stops the loop after the writes made
so far. -/
def writeLoop (resolved : List (Str × List ((Option Str) × (Str × Str)))) :
    List (Str × Str × List MissingSHA) → Except AppExc Unit × List (Str × Str)
  | [] => (.ok (), [])
  | (path, content, reps) :: rest =>
    match applyReps resolved (splitLinesKeepEnds content) reps with
    | .error e => (.error e, [])
    | .ok lines =>
      let r := writeLoop resolved rest
      (r.1, (path, joinStrs lines) :: r.2)

/-- The `reps_map` dict comprehension of main.py lines 66-69: scan every
loaded file in order, carrying the file's raw content along (the code keeps
it in `content_map`, keyed by the same path). -/
def loadRepsMap (parseDoc : Str → Document) :
    List (Str × Str) → Except AppExc (List (Str × Str × List MissingSHA))
  | [] => .ok []
  | (path, content) :: rest => do
    let reps ← find_missing_shas path (parseDoc content)
    let tail ← loadRepsMap parseDoc rest
    pure ((path, content, reps) :: tail)

/-- The observable outcome of one `enforce` run: the returned success flag
(or the exception), the file writes performed, and the git commands issued. -/
structure EnforceRun where
  result : Except AppExc Bool
  writes : List (Str × Str)
  trace : List (Str × GitCmd)
  deriving Repr

/-- `main.py::_enforce_gha_shas`: scan all files, group and resolve every
requested version, then rewrite and write back every scanned file; the
returned flag is `True` iff no file had any occurrence.  `parseDoc` stands
for the black-box YAML load of the file content. -/
def enforce_gha_shas (parseDoc : Str → Document) (vle : Str → Str → Bool)
    (world : Str → List (Str × Str)) (contentMap : List (Str × Str)) : EnforceRun :=
  match loadRepsMap parseDoc contentMap with
  | .error e => ⟨.error e, [], []⟩
  | .ok repsMap =>
    let allReps := repsMap.flatMap (fun e => e.2.2)
    let r := resolveAllTags vle world (repoRequestedTags allReps)
    match r.1 with
    | .error e => ⟨.error e, [], r.2⟩
    | .ok resolved =>
      let w := writeLoop resolved repsMap
      match w.1 with
      | .error e => ⟨.error e, w.2, r.2⟩
      | .ok _ => ⟨.ok (repsMap.all (fun e => e.2.2.isEmpty)), w.2, r.2⟩

/-- The scan results of a run, as seen from outside `enforce_gha_shas`
(empty when the scan itself fails). -/
def scannedFileReps (parseDoc : Str → Document) (contentMap : List (Str × Str)) :
    List (Str × Str × List MissingSHA) :=
  ((loadRepsMap parseDoc contentMap).toOption).getD []

/-- All occurrences of a run, in file order (the
`itertools.chain.from_iterable(reps_map.values())` of main.py line 72). -/
def scannedReps (parseDoc : Str → Document) (contentMap : List (Str × Str)) :
    List MissingSHA :=
  (scannedFileReps parseDoc contentMap).flatMap (fun e => e.2.2)

/-- Number of `git fetch --tags` commands a run issued from the transient
repository of `action` with tag pattern `pat*`. -/
def traceFetchCount (tr : List (Str × GitCmd)) (action pat : Str) : Nat :=
  tr.countP (fun e => decide (e = (action, GitCmd.fetchTags pat)))

/-- Decimal rendering of a natural number (Python's f-string of an int). -/
def natToStr (n : Nat) : Str := Nat.toDigits 10 n

/-- The violation report line of `main.py::_check_gha_shas` (line 135). -/
def reportLine (rep : MissingSHA) : Str :=
  "in workflow file ".data ++ rep.path ++ ": in job ".data ++ rep.job_name
    ++ ": in step #".data ++ natToStr (rep.step_index + 1) ++ ": ".data
    ++ rep.action_version.to_str

/-- `main.py::_check_gha_shas`: scan every file, report every occurrence to
stderr, succeed iff there was none. -/
def check_gha_shas (parseDoc : Str → Document) :
    List (Str × Str) → Except AppExc (Bool × List Str)
  | [] => .ok (true, [])
  | (path, content) :: rest => do
    let reps ← find_missing_shas path (parseDoc content)
    let r ← check_gha_shas parseDoc rest
    pure (reps.isEmpty && r.1, reps.map reportLine ++ r.2)

/-- `main.py::main` for the `check` subcommand: exit code and stderr lines
(`_run` returning True maps to exit 0, False to 1; an exception goes through
`log_error`). -/
def main_check (parseDoc : Str → Document) (contentMap : List (Str × Str)) :
    Nat × List Str :=
  match check_gha_shas parseDoc contentMap with
  | .ok r => (if r.1 then 0 else 1, r.2)
  | .error e => ((log_error e).1, [(log_error e).2])

/-- A trivially total and transitive stand-in for the backend version order,
used by concrete runs whose outcome does not depend on the sort. -/
def vleAny : Str → Str → Bool := fun _ _ => true

/-- The spec's example tag set `{v1.0.0, v1.1.0, v1.1.1, v2.0.0}` with
distinct commit ids. -/
def tagsExample : List (Str × Str) :=
  [("v1.0.0".data, "c100".data), ("v1.1.0".data, "c110".data),
   ("v1.1.1".data, "c111".data), ("v2.0.0".data, "c200".data)]

/-- A 40-character lowercase commit id. -/
def shaForty : Str := List.replicate 40 'a'

/-- A document whose only job has no `steps` key (the `single_job_no_steps`
shape of the repository's tests). -/
def docNoSteps : Document :=
  ⟨some [("just-checkout".data, ⟨none⟩)], none⟩

/-- A document with one job of one unpinned step `a/b@v1`. -/
def docV1 : Document :=
  ⟨some [("first".data, ⟨some [⟨some "a/b@v1".data, ⟨3, 14⟩⟩]⟩)], none⟩

/-- A document with one job of one unpinned step `a/b@v9`. -/
def docV9 : Document :=
  ⟨some [("first".data, ⟨some [⟨some "a/b@v9".data, ⟨3, 14⟩⟩]⟩)], none⟩

/-- A document with one job whose only step is already pinned. -/
def docPinned : Document :=
  ⟨some [("first".data, ⟨some [⟨some ("a/b@".data ++ shaForty), ⟨3, 14⟩⟩]⟩)], none⟩

/-- A world with a single remote, `https://github.com/a/b`, holding one tag. -/
def worldV1 : Str → List (Str × Str) :=
  fun _ => [("v1.0.0".data, "abc".data)]

/-- A world in which every remote has no tags at all. -/
def worldEmpty : Str → List (Str × Str) := fun _ => []

/-- Propositional equality of `Except` results is decidable componentwise
(used only to let witnesses evaluate concrete runs by `decide`). -/
instance {e a : Type} [DecidableEq e] [DecidableEq a] : DecidableEq (Except e a) :=
  fun x y =>
    match x, y with
    | .ok v, .ok w =>
      if h : v = w then .isTrue (by rw [h]) else .isFalse (by simp [h])
    | .error v, .error w =>
      if h : v = w then .isTrue (by rw [h]) else .isFalse (by simp [h])
    | .ok _, .error _ => .isFalse (by simp)
    | .error _, .ok _ => .isFalse (by simp)

/-- Stepping-stone instances so that equality of the resolved-tag maps stays
synthesizable (the fully nested type otherwise exceeds the default instance
search size). -/
instance : DecidableEq ((Option Str) × (Str × Str)) := inferInstance

instance : DecidableEq (List ((Option Str) × (Str × Str))) := inferInstance

instance : DecidableEq (Str × List ((Option Str) × (Str × Str))) := inferInstance

instance : DecidableEq (List (Str × List ((Option Str) × (Str × Str)))) := inferInstance

instance : DecidableEq (Str × Str × List MissingSHA) := inferInstance

instance : DecidableEq (List (Str × Str × List MissingSHA)) := inferInstance

-- ====================  THEOREMS  ====================

theorem splitFirstAt_append (sep : Char) :
    ∀ s l r, splitFirstAt sep s = some (l, r) → l ++ sep :: r = s := by
  intro s
  induction s with
  | nil => intro l r h; simp [splitFirstAt] at h
  | cons c cs ih =>
    intro l r h
    by_cases hc : c = sep
    · simp [splitFirstAt, hc] at h
      simp [← h.1, ← h.2, hc]
    · simp only [splitFirstAt, if_neg hc] at h
      cases hs : splitFirstAt sep cs with
      | none => rw [hs] at h; simp at h
      | some p =>
        rw [hs] at h
        cases p with
        | mk l' r' =>
          simp at h
          have := ih l' r' hs
          rw [← h.1, ← h.2]
          simp [this]

/-- C10: for every raw reference string, parsing it into an `ActionVersion`
and re-serializing it is the identity, both when the string contains `@`
(split on the first `@`, an empty version after `@` included) and when it
contains no `@` at all. -/
theorem actionVersion_parse_to_str_roundtrip (s : Str) :
    (ActionVersion.parse s).to_str = s := by
  unfold ActionVersion.parse
  cases h : splitFirstAt actionVersionSep s with
  | none => simp [ActionVersion.to_str]
  | some p =>
    cases p with
    | mk l r =>
      simp [ActionVersion.to_str]
      exact splitFirstAt_append actionVersionSep s l r h

theorem mem_hexDigits_iff (c : Char) : c ∈ hexDigits ↔ c ∈ lowercaseHexDigits := by
  have hsplit : hexDigits = lowercaseHexDigits ++ "abcdef".data := by decide
  have hsub : ∀ x ∈ "abcdef".data, x ∈ lowercaseHexDigits := by decide
  constructor
  · intro h
    rw [hsplit] at h
    rcases List.mem_append.mp h with h2 | h2
    · exact h2
    · exact hsub c h2
  · intro h
    rw [hsplit]
    exact List.mem_append.mpr (Or.inl h)

/-- C6: a remote reference is treated as already pinned (never flagged) iff
the version part after the first `@` is present, has length exactly 40, and
every character is a lowercase hexadecimal digit; any uppercase digit, wrong
length, non-hex character or missing `@` makes `needsPin` true, i.e. the
reference is flagged by `find_missing_shas`. -/
theorem pinned_iff_forty_lowercase_hex (raw : Str) :
    needsPin (ActionVersion.parse raw) = false ↔
      ∃ v, (ActionVersion.parse raw).version = some v ∧
        v.length = 40 ∧ ∀ c ∈ v, c ∈ lowercaseHexDigits := by
  cases h : (ActionVersion.parse raw).version with
  | none =>
    constructor
    · intro hp
      unfold needsPin at hp
      rw [h] at hp
      simp at hp
    · rintro ⟨v, hv, -⟩
      simp at hv
  | some v =>
    unfold needsPin
    rw [h]
    simp only [Bool.not_eq_false', Option.some.injEq]
    constructor
    · intro hc
      refine ⟨v, rfl, ?_⟩
      unfold is_complete_git_sha at hc
      simp [gitShaLength, List.all_eq_true] at hc
      exact ⟨hc.1, fun c hcv => (mem_hexDigits_iff c).mp (hc.2 c hcv)⟩
    · rintro ⟨w, hw, hlen, hhex⟩
      cases hw
      unfold is_complete_git_sha
      simp [gitShaLength, List.all_eq_true, hlen]
      exact fun c hcv => (mem_hexDigits_iff c).mpr (hhex c hcv)

theorem mem_insertDesc (le : Str → Str → Bool) (x a : Str) :
    ∀ l, a ∈ insertDesc le x l ↔ a = x ∨ a ∈ l := by
  intro l
  induction l with
  | nil => simp [insertDesc]
  | cons y ys ih =>
    by_cases hle : le x y
    · simp [insertDesc, hle, ih]
      tauto
    · simp [insertDesc, hle]

theorem mem_sortDesc (le : Str → Str → Bool) (a : Str) :
    ∀ l, a ∈ sortDesc le l ↔ a ∈ l := by
  intro l
  induction l with
  | nil => simp [sortDesc]
  | cons x xs ih => simp [sortDesc, mem_insertDesc, ih]

theorem sortDesc_eq_nil_iff (le : Str → Str → Bool) (l : List Str) :
    sortDesc le l = [] ↔ l = [] := by
  cases l with
  | nil => simp [sortDesc]
  | cons x xs =>
    constructor
    · intro h
      have : x ∈ sortDesc le (x :: xs) := by
        rw [mem_sortDesc]; exact List.mem_cons_self x xs
      rw [h] at this
      simp at this
    · intro h; simp at h

/-- The head of the version-descending sort is maximal: with a total and
transitive order, every element of the input is `le` the head. -/
theorem sortDesc_head_max (le : Str → Str → Bool)
    (htot : ∀ a b, le a b = true ∨ le b a = true)
    (htr : ∀ a b c, le a b = true → le b c = true → le a c = true) :
    ∀ l t rest, sortDesc le l = t :: rest → ∀ a ∈ l, le a t = true := by
  intro l
  induction l with
  | nil => intro t rest h; simp [sortDesc] at h
  | cons x xs ih =>
    intro t rest h a ha
    rw [List.mem_cons] at ha
    simp only [sortDesc] at h
    cases hs : sortDesc le xs with
    | nil =>
      rw [hs] at h
      simp [insertDesc] at h
      have hx : xs = [] := (sortDesc_eq_nil_iff le xs).mp hs
      rcases ha with rfl | hax
      · rw [← h.1]
        rcases htot a a with hle | hle <;> exact hle
      · rw [hx] at hax; simp at hax
    | cons y ys =>
      rw [hs] at h
      by_cases hle : le x y
      · simp [insertDesc, hle] at h
        have ht : t = y := by rw [← h.1]
        rcases ha with rfl | hax
        · rw [ht]; exact hle
        · rw [ht]; exact ih y ys hs a hax
      · simp [insertDesc, hle] at h
        have ht : t = x := by rw [← h.1]
        rcases htot x y with hxy | hyx
        · exact absurd hxy hle
        · rcases ha with rfl | hax
          · rw [ht]
            rcases htot a a with h' | h' <;> exact h'
          · have hay := ih y ys hs a hax
            rw [ht]
            exact htr a y x hay hyx

theorem strStartsWith_self : ∀ s : Str, strStartsWith s s = true := by
  intro s
  induction s with
  | nil => rfl
  | cons c cs ih => simp [strStartsWith, ih]

theorem nodupKeys_val_unique :
    ∀ (l : List (Str × Str)), (l.map (fun e => e.1)).Nodup →
      ∀ a b₁ b₂, (a, b₁) ∈ l → (a, b₂) ∈ l → b₁ = b₂ := by
  intro l
  induction l with
  | nil => intro _ a b₁ b₂ h; simp at h
  | cons e rest ih =>
    intro hnd a b₁ b₂ h1 h2
    rw [List.map_cons, List.nodup_cons] at hnd
    rcases List.mem_cons.mp h1 with he1 | hr1 <;>
      rcases List.mem_cons.mp h2 with he2 | hr2
    · rw [← he2] at he1
      exact congrArg Prod.snd he1
    · exfalso
      apply hnd.1
      rw [← he1]
      exact List.mem_map_of_mem (fun e => e.1) hr2
    · exfalso
      apply hnd.1
      rw [← he2]
      exact List.mem_map_of_mem (fun e => e.1) hr1
    · exact ih hnd.2 a b₁ b₂ hr1 hr2

theorem revParseTag_eq_some (l : List (Str × Str)) (a b : Str)
    (hnd : (l.map (fun e => e.1)).Nodup) (hm : (a, b) ∈ l) :
    revParseTag l a = some b := by
  unfold revParseTag
  cases hf : l.find? (fun e => e.1 == a) with
  | none =>
    exfalso
    have := List.find?_eq_none.mp hf (a, b) hm
    simp at this
  | some e =>
    have hme : e ∈ l := List.mem_of_find?_eq_some hf
    have hpe : e.1 = a := by
      have := List.find?_some hf
      simpa using this
    have : e.2 = b := by
      apply nodupKeys_val_unique l hnd a e.2 b _ hm
      rw [← hpe]
      exact hme
    simp [this]

theorem nodup_filter_keys (tags : List (Str × Str)) (p : Str)
    (hnd : (tags.map (fun e => e.1)).Nodup) :
    ((tags.filter (fun e => strStartsWith e.1 p)).map (fun e => e.1)).Nodup :=
  hnd.sublist ((List.filter_sublist tags).map (fun e => e.1))

/-- C7: for every non-empty requested version naming a tag that exists in the
remote's (fetched) tag set, `resolve_tag` returns exactly that tag and its
commit id — the exact-match short-circuit fires before the version-descending
listing, so no higher tag sharing the request as a prefix is ever chosen. -/
theorem resolve_tag_exact_short_circuit (vle : Str → Str → Bool)
    (tags : List (Str × Str)) (p sha : Str)
    (hnd : (tags.map (fun e => e.1)).Nodup) (hp : p ≠ []) (hm : (p, sha) ∈ tags) :
    (resolve_tag vle tags (some p)).1 = .ok (p, sha) := by
  have hmem : (p, sha) ∈ tags.filter (fun e => strStartsWith e.1 p) :=
    List.mem_filter.mpr ⟨hm, strStartsWith_self p⟩
  have hrv : revParseTag (tags.filter (fun e => strStartsWith e.1 p)) p = some sha :=
    revParseTag_eq_some _ p sha (nodup_filter_keys tags p hnd) hmem
  unfold resolve_tag
  simp only [Option.getD_some]
  rw [if_neg hp, hrv]

/-- C7 witness: against the spec's example tag set, requesting `v1.1.1`
returns `(v1.1.1, commitOf v1.1.1)` even though `v2.0.0` exists. -/
theorem resolve_tag_exact_short_circuit_witness :
    (resolve_tag vleAny tagsExample (some "v1.1.1".data)).1 =
      .ok ("v1.1.1".data, "c111".data) :=
  resolve_tag_exact_short_circuit vleAny tagsExample "v1.1.1".data "c111".data
    (by decide) (by decide) (by decide)

/-- C9: when no tag at all matches the requested version — neither as an
exact tag nor as a prefix — `resolve_tag` fails with the user-level error
(the code's `UserError`, which `log_error` prints as `Error: <msg>` with exit
code 1) whose message is `could not find any tag matching <requested>`. -/
theorem resolve_tag_no_match_fails (vle : Str → Str → Bool)
    (tags : List (Str × Str)) (requested : Option Str)
    (hno : ∀ e ∈ tags, strStartsWith e.1 (requested.getD []) = false) :
    (resolve_tag vle tags requested).1 =
      .error (.userError ("could not find any tag matching ".data ++ requested.getD [])) ∧
    log_error (.userError ("could not find any tag matching ".data ++ requested.getD [])) =
      (1, "Error: could not find any tag matching ".data ++ requested.getD []) := by
  constructor
  · have hfe : tags.filter (fun e => strStartsWith e.1 (requested.getD [])) = [] := by
      rw [List.filter_eq_nil_iff]
      intro a ha
      simp [hno a ha]
    unfold resolve_tag
    simp [hfe, revParseTag, sortDesc]
  · have hpre : "Error: ".data ++ "could not find any tag matching ".data
        = "Error: could not find any tag matching ".data := by decide
    simp only [log_error]
    rw [← List.append_assoc, hpre]

/-- C9 witness: requesting `v9` against the spec's example tag set fails with
the `could not find any tag matching v9` user error. -/
theorem resolve_tag_no_match_fails_witness :
    (resolve_tag vleAny tagsExample (some "v9".data)).1 =
      .error (.userError "could not find any tag matching v9".data) ∧
    log_error (.userError "could not find any tag matching v9".data) =
      (1, "Error: could not find any tag matching v9".data) :=
  resolve_tag_no_match_fails vleAny tagsExample (some "v9".data) (by decide)

/-- C8: when the requested version is none/empty or no exact tag of that name
exists, `resolve_tag` considers every fetched tag whose name starts with the
request (the empty request matching all tags), sorts them descending by the
backend's native version order, and returns the first tag of that sort
together with its commit id; with a total transitive order that first tag is
highest: every matching tag is `vle` it. -/
theorem resolve_tag_px_highest (vle : Str → Str → Bool)
    (tags : List (Str × Str)) (requested : Option Str)
    (htot : ∀ a b, vle a b = true ∨ vle b a = true)
    (htr : ∀ a b c, vle a b = true → vle b c = true → vle a c = true)
    (hnx : requested.getD [] = [] ∨ ∀ e ∈ tags, e.1 ≠ requested.getD [])
    (hsome : ∃ e ∈ tags, strStartsWith e.1 (requested.getD []) = true) :
    ∃ t rest sha,
      sortDesc vle (((tags.filter (fun e => strStartsWith e.1 (requested.getD []))).map
          (fun e => e.1)).filter (fun n => strStartsWith n (requested.getD []))) = t :: rest ∧
      (resolve_tag vle tags requested).1 = .ok (t, sha) ∧
      (t, sha) ∈ tags ∧ strStartsWith t (requested.getD []) = true ∧
      ∀ e ∈ tags, strStartsWith e.1 (requested.getD []) = true → vle e.1 t = true := by
  have hex : (if requested.getD [] = [] then none
      else revParseTag (tags.filter (fun e => strStartsWith e.1 (requested.getD [])))
        (requested.getD [])) = none := by
    by_cases hp : requested.getD [] = []
    · simp [hp]
    · rcases hnx with h | h
      · exact absurd h hp
      · rw [if_neg hp]
        have hfn : (tags.filter (fun e => strStartsWith e.1 (requested.getD []))).find?
            (fun e => e.1 == requested.getD []) = none := by
          rw [List.find?_eq_none]
          intro x hx
          simp only [beq_iff_eq]
          exact h x (List.mem_of_mem_filter hx)
        simp [revParseTag, hfn]
  rcases hsome with ⟨e0, he0, hpx0⟩
  have hef : e0 ∈ tags.filter (fun e => strStartsWith e.1 (requested.getD [])) := by
    rw [List.mem_filter]
    exact ⟨he0, hpx0⟩
  have hmemf : e0.1 ∈ ((tags.filter (fun e => strStartsWith e.1 (requested.getD []))).map
      (fun e => e.1)).filter (fun n => strStartsWith n (requested.getD [])) := by
    rw [List.mem_filter]
    exact ⟨List.mem_map_of_mem (fun e => e.1) hef, hpx0⟩
  cases hnames : sortDesc vle (((tags.filter (fun e => strStartsWith e.1 (requested.getD []))).map
      (fun e => e.1)).filter (fun n => strStartsWith n (requested.getD []))) with
  | nil =>
    exfalso
    have := (mem_sortDesc vle e0.1 _).mpr hmemf
    rw [hnames] at this
    simp at this
  | cons t rest =>
    have htmem : t ∈ ((tags.filter (fun e => strStartsWith e.1 (requested.getD []))).map
        (fun e => e.1)).filter (fun n => strStartsWith n (requested.getD [])) := by
      have : t ∈ sortDesc vle (((tags.filter (fun e => strStartsWith e.1 (requested.getD []))).map
          (fun e => e.1)).filter (fun n => strStartsWith n (requested.getD []))) := by
        rw [hnames]; exact List.mem_cons_self t rest
      exact (mem_sortDesc vle t _).mp this
    rw [List.mem_filter] at htmem
    obtain ⟨e', he', het⟩ := List.mem_map.mp htmem.1
    have hfind : ∃ e'', (tags.filter (fun e => strStartsWith e.1 (requested.getD []))).find?
        (fun e => e.1 == t) = some e'' := by
      cases hf : (tags.filter (fun e => strStartsWith e.1 (requested.getD []))).find?
          (fun e => e.1 == t) with
      | none =>
        exfalso
        have := List.find?_eq_none.mp hf e' he'
        simp [het] at this
      | some e'' => exact ⟨e'', rfl⟩
    obtain ⟨e'', hf⟩ := hfind
    have he''mem : e'' ∈ tags.filter (fun e => strStartsWith e.1 (requested.getD [])) :=
      List.mem_of_find?_eq_some hf
    have hrv : revParseTag (tags.filter (fun e => strStartsWith e.1 (requested.getD []))) t
        = some e''.2 := by
      simp [revParseTag, hf]
    refine ⟨t, rest, e''.2, rfl, ?_, ?_, htmem.2, ?_⟩
    · unfold resolve_tag
      simp only [hex, hnames, hrv]
    · have h1 : e''.1 = t := by simpa using List.find?_some hf
      have h2 : e'' ∈ tags := List.mem_of_mem_filter he''mem
      have : e'' = (t, e''.2) := by
        cases e'' with
        | mk x y => simp at h1 ⊢; exact h1
      rw [← this]
      exact h2
    · intro e he hpe
      apply sortDesc_head_max vle htot htr _ t rest hnames
      rw [List.mem_filter]
      exact ⟨List.mem_map_of_mem (fun x => x.1) (List.mem_filter.mpr ⟨he, hpe⟩), hpe⟩

/-- C8 witness: against the spec's example tag set (with a trivially total
backend order), requesting the genuine prefix `v1` succeeds with a tag of the
set that starts with `v1` and is the head of the version-descending sort. -/
theorem resolve_tag_px_highest_witness :
    ∃ t rest sha,
      sortDesc vleAny (((tagsExample.filter (fun e => strStartsWith e.1 ((some "v1".data).getD []))).map
          (fun e => e.1)).filter (fun n => strStartsWith n ((some "v1".data).getD []))) = t :: rest ∧
      (resolve_tag vleAny tagsExample (some "v1".data)).1 = .ok (t, sha) ∧
      (t, sha) ∈ tagsExample ∧ strStartsWith t ((some "v1".data).getD []) = true ∧
      ∀ e ∈ tagsExample, strStartsWith e.1 ((some "v1".data).getD []) = true →
        vleAny e.1 t = true :=
  resolve_tag_px_highest vleAny tagsExample (some "v1".data)
    (fun _ _ => Or.inl rfl) (fun _ _ _ _ _ => rfl)
    (Or.inr (by decide)) (by decide)

/-- C1 counterexample: a document whose only job has no `steps` key makes the
`check` run exit 0 with empty stderr — not exit 1 with
`Error: cannot process job (name=just-checkout) in p: job has no steps` as
the claim states (the scanner's `continue` silently skips such a job). -/
theorem missing_steps_silently_skipped_counterexample :
    main_check (fun _ => docNoSteps) [("p".data, "c".data)] = (0, []) ∧
    (main_check (fun _ => docNoSteps) [("p".data, "c".data)]).1 ≠ 1 := by
  decide

theorem jobsOccs_skip (workflow_path : Str) (name : Str) (post : List (Str × Job)) :
    ∀ pre, jobsOccs workflow_path (pre ++ (name, ⟨none⟩) :: post)
      = jobsOccs workflow_path (pre ++ post) := by
  intro pre
  induction pre with
  | nil => simp [jobsOccs]
  | cons e rest ih =>
    cases e with
    | mk n j => simp [jobsOccs, ih]

/-- C1 amended: a job present in the document but missing a `steps` key is
silently skipped: it raises no error and contributes no occurrences, and the
scan of every other job (and hence of every other file) proceeds exactly as
if the job were absent. -/
theorem missing_steps_job_skipped (workflow_path : Str) (name : Str)
    (pre post : List (Str × Job)) (runs : Option (List (Str × Job))) :
    find_missing_shas workflow_path ⟨some (pre ++ (name, ⟨none⟩) :: post), runs⟩
      = find_missing_shas workflow_path ⟨some (pre ++ post), runs⟩ := by
  unfold find_missing_shas
  simp [jobsOccs_skip]

/-- C5 counterexample: splicing into a line that has no terminator at all
does not preserve the "lack of a terminator": the line's final content
character (here the `1` of `@v1`) is appended after the replacement, because
the code re-appends `line[-1]` unconditionally. -/
theorem splice_unterminated_line_counterexample :
    spliceIntoLine "- uses: a/b@v1".data 8 (newUsesText "a/b".data shaForty "v1.0.0".data)
      = "- uses: ".data ++ newUsesText "a/b".data shaForty "v1.0.0".data ++ ['1'] ∧
    spliceIntoLine "- uses: a/b@v1".data 8 (newUsesText "a/b".data shaForty "v1.0.0".data)
      ≠ "- uses: ".data ++ newUsesText "a/b".data shaForty "v1.0.0".data := by
  decide

theorem drop_pred_length_eq_getLast {α : Type} :
    ∀ (l : List α) (h : l ≠ []), l.drop (l.length - 1) = [l.getLast h] := by
  intro l
  induction l with
  | nil => intro h; simp at h
  | cons x t ih =>
    intro h
    cases t with
    | nil => simp [List.getLast]
    | cons y t2 =>
      have hne : y :: t2 ≠ [] := by simp
      have hlen : (x :: y :: t2).length - 1 = ((y :: t2).length - 1) + 1 := by
        simp
      rw [hlen, List.drop_succ_cons, ih hne]
      congr 1

/-- C5 amended: for every rewritten occurrence, everything before the
recorded column on the recorded line is preserved exactly, the spliced
replacement is `repositoryPath@commitId  # fullTagName` (two spaces before
the comment), and then the *final character* of the original line is
appended: this preserves a one-character terminator such as `\n` exactly,
but reduces a `\r\n` terminator to `\n` alone and duplicates the last
content character of a line that has no terminator. -/
theorem splice_preserves_head_appends_last_char (line : Str) (col : Nat)
    (actionPath sha fullTag : Str) (h : line ≠ []) :
    spliceIntoLine line col (newUsesText actionPath sha fullTag)
      = line.take col ++ (actionPath ++ '@' :: (sha ++ "  # ".data ++ fullTag))
        ++ [line.getLast h] := by
  unfold spliceIntoLine newUsesText
  rw [drop_pred_length_eq_getLast line h]
  simp [ActionVersion.to_str, actionVersionSep]

/-- C5 amended witness: splicing into an `\n`-terminated line keeps the
prefix before the column, splices the replacement, and keeps the `\n`. -/
theorem splice_preserves_head_appends_last_char_witness :
    spliceIntoLine "- uses: x@v1\n".data 8 (newUsesText "a/b".data shaForty "v1.0.0".data)
      = ("- uses: x@v1\n".data).take 8 ++ ("a/b".data ++ '@' :: (shaForty ++ "  # ".data ++ "v1.0.0".data))
        ++ [("- uses: x@v1\n".data).getLast (by decide)] :=
  splice_preserves_head_appends_last_char "- uses: x@v1\n".data 8 "a/b".data shaForty
    "v1.0.0".data (by decide)

/-- C2: in enforce mode no file write happens unless every resolution in the
batch has succeeded: if the resolution phase over the grouped requested
versions of all scanned occurrences fails with some exception, the whole run
returns that exception and the list of files written is empty. -/
theorem enforce_aborts_with_zero_writes_on_resolution_failure
    (parseDoc : Str → Document) (vle : Str → Str → Bool)
    (world : Str → List (Str × Str)) (contentMap : List (Str × Str)) (e : AppExc)
    (hfail : (resolveAllTags vle world
        (repoRequestedTags (scannedReps parseDoc contentMap))).1 = .error e) :
    (enforce_gha_shas parseDoc vle world contentMap).result = .error e ∧
    (enforce_gha_shas parseDoc vle world contentMap).writes = [] := by
  cases hl : loadRepsMap parseDoc contentMap with
  | error e2 =>
    exfalso
    have hempty : scannedReps parseDoc contentMap = [] := by
      unfold scannedReps scannedFileReps
      rw [hl]
      rfl
    rw [hempty] at hfail
    simp [repoRequestedTags, resolveAllTags] at hfail
  | ok rm =>
    have hsr : scannedReps parseDoc contentMap = rm.flatMap (fun x => x.2.2) := by
      unfold scannedReps scannedFileReps
      rw [hl]
      rfl
    rw [hsr] at hfail
    unfold enforce_gha_shas
    rw [hl]
    simp only [hfail]
    exact ⟨trivial, trivial⟩

/-- C2 witness: one file whose only step requests `v9` from a remote with no
tags: the resolution phase fails, the run returns that failure and writes
nothing. -/
theorem enforce_aborts_with_zero_writes_on_resolution_failure_witness :
    (resolveAllTags vleAny worldEmpty
        (repoRequestedTags (scannedReps (fun _ => docV9) [("f".data, "c".data)]))).1
      = .error (.userError "could not find any tag matching v9".data) ∧
    (enforce_gha_shas (fun _ => docV9) vleAny worldEmpty [("f".data, "c".data)]).result
      = .error (.userError "could not find any tag matching v9".data) ∧
    (enforce_gha_shas (fun _ => docV9) vleAny worldEmpty [("f".data, "c".data)]).writes = [] :=
  ⟨by decide,
   enforce_aborts_with_zero_writes_on_resolution_failure (fun _ => docV9) vleAny worldEmpty
     [("f".data, "c".data)] (.userError "could not find any tag matching v9".data) (by decide)⟩

theorem joinStrs_splitLinesAux :
    ∀ (cur s : Str), joinStrs (splitLinesAux cur s) = cur.reverse ++ s := by
  intro cur s
  induction cur, s using splitLinesAux.induct <;>
    simp_all [splitLinesAux, joinStrs]

theorem joinStrs_splitLinesKeepEnds (s : Str) :
    joinStrs (splitLinesKeepEnds s) = s := by
  unfold splitLinesKeepEnds
  rw [joinStrs_splitLinesAux]
  rfl

/-- C4 counterexample: a file in which the scanner finds zero unpinned
occurrences IS opened for writing: the enforce run writes the file back
(with its original content), so the write list is not empty. -/
theorem clean_file_still_written_counterexample :
    (enforce_gha_shas (fun _ => docPinned) vleAny worldEmpty
        [("f".data, "x".data)]).writes = [("f".data, "x".data)] ∧
    (enforce_gha_shas (fun _ => docPinned) vleAny worldEmpty
        [("f".data, "x".data)]).writes ≠ [] := by
  decide

theorem writeLoop_writes_clean_file (resolved : List (Str × List ((Option Str) × (Str × Str)))) :
    ∀ rm, (∃ u, (writeLoop resolved rm).1 = .ok u) →
      ∀ path content, (path, content, ([] : List MissingSHA)) ∈ rm →
        (path, content) ∈ (writeLoop resolved rm).2 := by
  intro rm
  induction rm with
  | nil =>
    intro _ path content h
    simp at h
  | cons entry rest ih =>
    obtain ⟨p, c, reps⟩ := entry
    rintro ⟨u, hok⟩ path content hmem
    unfold writeLoop at hok ⊢
    cases ha : applyReps resolved (splitLinesKeepEnds c) reps with
    | error e =>
      simp [ha] at hok
    | ok lines =>
      simp only [ha] at hok
      simp only []
      rcases List.mem_cons.mp hmem with hhead | htail
      · have hp : p = path := (congrArg (fun x => x.1) hhead).symm
        have hc : c = content := (congrArg (fun x => x.2.1) hhead).symm
        have hreps : reps = [] := (congrArg (fun x => x.2.2) hhead).symm
        subst hp hc hreps
        have hlines : lines = splitLinesKeepEnds c := by
          unfold applyReps at ha
          exact (Except.ok.inj ha).symm
        rw [hlines, joinStrs_splitLinesKeepEnds]
        exact List.mem_cons_self _ _
      · exact List.mem_cons_of_mem _ (ih ⟨u, hok⟩ path content htail)

/-- C4 amended: in enforce mode every scanned file is opened for writing —
including a document with zero occurrences, which a successful run writes
back with exactly its original content (the file is rewritten, not left
unopened as the spec claims). -/
theorem clean_file_rewritten_with_original_content
    (parseDoc : Str → Document) (vle : Str → Str → Bool)
    (world : Str → List (Str × Str)) (contentMap : List (Str × Str)) (b : Bool)
    (hok : (enforce_gha_shas parseDoc vle world contentMap).result = .ok b)
    (path content : Str)
    (hmem : (path, content, ([] : List MissingSHA)) ∈ scannedFileReps parseDoc contentMap) :
    (path, content) ∈ (enforce_gha_shas parseDoc vle world contentMap).writes := by
  cases hl : loadRepsMap parseDoc contentMap with
  | error e =>
    unfold enforce_gha_shas at hok
    rw [hl] at hok
    simp at hok
  | ok rm =>
    have hrm : scannedFileReps parseDoc contentMap = rm := by
      unfold scannedFileReps
      rw [hl]
      rfl
    rw [hrm] at hmem
    cases hr : (resolveAllTags vle world (repoRequestedTags (rm.flatMap fun e => e.2.2))).1 with
    | error e =>
      have hres : (enforce_gha_shas parseDoc vle world contentMap).result = .error e := by
        unfold enforce_gha_shas
        rw [hl]
        simp only []
        rw [hr]
      rw [hres] at hok
      simp at hok
    | ok resolved =>
      have hwrites : (enforce_gha_shas parseDoc vle world contentMap).writes
          = (writeLoop resolved rm).2 := by
        unfold enforce_gha_shas
        rw [hl]
        simp only []
        rw [hr]
        simp only []
        cases hw : (writeLoop resolved rm).1 with
        | error e2 => rfl
        | ok u => rfl
      cases hw : (writeLoop resolved rm).1 with
      | error e2 =>
        have hres : (enforce_gha_shas parseDoc vle world contentMap).result = .error e2 := by
          unfold enforce_gha_shas
          rw [hl]
          simp only []
          rw [hr]
          simp only []
          rw [hw]
        rw [hres] at hok
        simp at hok
      | ok u =>
        rw [hwrites]
        exact writeLoop_writes_clean_file resolved rm ⟨u, hw⟩ path content hmem

/-- C4 amended witness: the single pinned-file run succeeds and its write
list contains the file with its original content. -/
theorem clean_file_rewritten_with_original_content_witness :
    ("f".data, "x".data) ∈ (enforce_gha_shas (fun _ => docPinned) vleAny worldEmpty
      [("f".data, "x".data)]).writes :=
  clean_file_rewritten_with_original_content (fun _ => docPinned) vleAny worldEmpty
    [("f".data, "x".data)] true (by decide) "f".data "x".data (by decide)

/-- C3 counterexample: two files each containing one step `a/b@v1` — five or
two occurrences of the same (repositoryPath, requestedVersion) pair behave
alike — make the enforce run issue TWO `git fetch --tags` commands for the
pair `(a/b, v1)`, not at most one: resolution work is repeated per
occurrence. -/
theorem fetch_not_deduplicated_counterexample :
    traceFetchCount (enforce_gha_shas (fun _ => docV1) vleAny worldV1
        [("f1".data, "c".data), ("f2".data, "c".data)]).trace "a/b".data "v1".data = 2 ∧
    ¬ (traceFetchCount (enforce_gha_shas (fun _ => docV1) vleAny worldV1
        [("f1".data, "c".data), ("f2".data, "c".data)]).trace "a/b".data "v1".data ≤ 1) := by
  decide

theorem resolve_tag_trace_shape (vle : Str → Str → Bool) (tags : List (Str × Str))
    (req : Option Str) :
    ∃ rest, (resolve_tag vle tags req).2 = GitCmd.fetchTags (req.getD []) :: rest ∧
      ∀ c ∈ rest, ∀ q, c ≠ GitCmd.fetchTags q := by
  have hif : ∀ c, c ∈ (if req.getD [] = [] then ([] : List GitCmd)
      else [GitCmd.revParse (req.getD [])]) → ∀ q, c ≠ GitCmd.fetchTags q := by
    intro c hc q
    by_cases hp : req.getD [] = []
    · rw [if_pos hp] at hc
      simp at hc
    · rw [if_neg hp] at hc
      simp at hc
      simp [hc]
  unfold resolve_tag
  simp only []
  split
  · exact ⟨_, rfl, hif⟩
  · split
    · refine ⟨_, rfl, ?_⟩
      intro c hc q
      rcases List.mem_append.mp hc with h | h
      · exact hif c h q
      · simp at h
        simp [h]
    · split
      · refine ⟨_, rfl, ?_⟩
        intro c hc q
        rcases List.mem_append.mp hc with h | h
        · rcases List.mem_append.mp h with h2 | h2
          · exact hif c h2 q
          · simp at h2
            simp [h2]
        · simp at h
          simp [h]
      · refine ⟨_, rfl, ?_⟩
        intro c hc q
        rcases List.mem_append.mp hc with h | h
        · rcases List.mem_append.mp h with h2 | h2
          · exact hif c h2 q
          · simp at h2
            simp [h2]
        · simp at h
          simp [h]

theorem resolve_tag_trace_fetch_count (vle : Str → Str → Bool) (tags : List (Str × Str))
    (req : Option Str) (p : Str) :
    (resolve_tag vle tags req).2.countP (fun c => decide (c = GitCmd.fetchTags p))
      = if req.getD [] = p then 1 else 0 := by
  obtain ⟨rest, hsh, hrest⟩ := resolve_tag_trace_shape vle tags req
  rw [hsh, List.countP_cons]
  have h0 : rest.countP (fun c => decide (c = GitCmd.fetchTags p)) = 0 := by
    rw [List.countP_eq_zero]
    intro c hc
    simp only [decide_eq_true_eq]
    exact hrest c hc p
  rw [h0]
  by_cases hq : req.getD [] = p
  · simp [hq]
  · simp [hq]

theorem resolveTagsLoop_trace_fetch_count (vle : Str → Str → Bool)
    (tags : List (Str × Str)) (action a p : Str) :
    ∀ (vs : List (Option Str)) m, (resolveTagsLoop vle tags action vs).1 = .ok m →
      (resolveTagsLoop vle tags action vs).2.countP
          (fun e => decide (e = (a, GitCmd.fetchTags p)))
        = if action = a then vs.countP (fun v => decide (v.getD [] = p)) else 0 := by
  intro vs
  induction vs with
  | nil =>
    intro m _
    simp [resolveTagsLoop]
  | cons v vs ih =>
    intro m hok
    unfold resolveTagsLoop at hok ⊢
    simp only [] at hok ⊢
    cases hr : (resolve_tag vle tags v).1 with
    | error e =>
      simp [hr] at hok
    | ok fs =>
      simp only [hr] at hok ⊢
      obtain ⟨m2, hrest⟩ : ∃ m2, (resolveTagsLoop vle tags action vs).1 = .ok m2 := by
        cases hq : (resolveTagsLoop vle tags action vs).1 with
        | error e2 =>
          simp [hq, Except.map] at hok
        | ok m2 => exact ⟨m2, rfl⟩
      · rw [List.countP_append, List.countP_map]
        have hcomp : ((fun e => decide (e = (a, GitCmd.fetchTags p)))
            ∘ (fun c => (action, c)))
            = fun c => decide (action = a) && decide (c = GitCmd.fetchTags p) := by
          funext c
          simp [Prod.ext_iff, Bool.decide_and]
        rw [hcomp]
        by_cases ha : action = a
        · have : (fun c => decide (action = a) && decide (c = GitCmd.fetchTags p))
              = fun c => decide (c = GitCmd.fetchTags p) := by
            funext c
            simp [ha]
          rw [this, resolve_tag_trace_fetch_count vle tags v p,
            ih m2 hrest, if_pos ha, List.countP_cons, if_pos ha]
          by_cases hv : v.getD [] = p
          · simp [hv, Nat.add_comm]
          · simp [hv]
        · have : (fun c => decide (action = a) && decide (c = GitCmd.fetchTags p))
              = fun _ => false := by
            funext c
            simp [ha]
          rw [this, ih m2 hrest, if_neg ha, if_neg ha]
          simp

theorem resolveAllTags_trace_fetch_count (vle : Str → Str → Bool)
    (world : Str → List (Str × Str)) (a p : Str) :
    ∀ (groups : List (Str × List (Option Str))) ms,
      (resolveAllTags vle world groups).1 = .ok ms →
      (resolveAllTags vle world groups).2.countP
          (fun e => decide (e = (a, GitCmd.fetchTags p)))
        = (groups.map (fun g => if g.1 = a
            then g.2.countP (fun v => decide (v.getD [] = p)) else 0)).sum := by
  intro groups
  induction groups with
  | nil =>
    intro ms _
    simp [resolveAllTags]
  | cons g rest ih =>
    obtain ⟨action, vs⟩ := g
    intro ms hok
    unfold resolveAllTags at hok ⊢
    simp only [] at hok ⊢
    cases hr : (resolveTagsLoop vle (world (repoUrlFromAction action)) action vs).1 with
    | error e =>
      simp [hr] at hok
    | ok m =>
      simp only [hr] at hok ⊢
      obtain ⟨ms2, hrest⟩ : ∃ ms2, (resolveAllTags vle world rest).1 = .ok ms2 := by
        cases hq : (resolveAllTags vle world rest).1 with
        | error e2 =>
          simp [hq, Except.map] at hok
        | ok ms2 => exact ⟨ms2, rfl⟩
      rw [List.cons_append, List.countP_cons, List.countP_append]
      have hinit : (decide ((action, GitCmd.initRepo (repoUrlFromAction action))
          = (a, GitCmd.fetchTags p))) = false := by
        simp
      rw [hinit]
      rw [resolveTagsLoop_trace_fetch_count vle (world (repoUrlFromAction action)) action a p vs m hr]
      rw [ih ms2 hrest]
      simp [List.sum_cons, Nat.add_comm]

theorem addToGroup_fetch_count (a p : Str) (k : Str) (v : Option Str) :
    ∀ (g : List (Str × List (Option Str))),
      ((addToGroup k v g).map (fun gg => if gg.1 = a
          then gg.2.countP (fun w => decide (w.getD [] = p)) else 0)).sum
        = (g.map (fun gg => if gg.1 = a
            then gg.2.countP (fun w => decide (w.getD [] = p)) else 0)).sum
          + (if k = a ∧ v.getD [] = p then 1 else 0) := by
  intro g
  induction g with
  | nil =>
    simp only [addToGroup, List.map_cons, List.map_nil, List.sum_cons, List.sum_nil]
    by_cases hk : k = a
    · by_cases hv : v.getD [] = p
      · simp [hk, hv]
      · simp [hk, hv]
    · simp [hk, fun h : k = a ∧ v.getD [] = p => hk h.1]
  | cons gg rest ih =>
    obtain ⟨k2, vs⟩ := gg
    unfold addToGroup
    by_cases hk2 : k2 = k
    · rw [if_pos hk2]
      simp only [List.map_cons, List.sum_cons]
      rw [List.countP_append]
      by_cases hka : k2 = a
      · rw [if_pos hka, if_pos hka]
        subst hk2
        by_cases hv : v.getD [] = p
        · simp [hv, hka, Nat.add_assoc, Nat.add_comm]
        · simp [hv, hka]
      · rw [if_neg hka, if_neg hka]
        subst hk2
        by_cases hv : v.getD [] = p
        · simp [hka]
        · simp [hka]
    · rw [if_neg hk2]
      simp only [List.map_cons, List.sum_cons]
      rw [ih]
      omega

theorem repoRequestedTags_fetch_count (a p : Str) :
    ∀ (reps : List MissingSHA) (g : List (Str × List (Option Str))),
      ((reps.foldl (fun acc rep =>
          addToGroup rep.action_version.path rep.action_version.version acc) g).map
            (fun gg => if gg.1 = a
              then gg.2.countP (fun w => decide (w.getD [] = p)) else 0)).sum
        = (g.map (fun gg => if gg.1 = a
            then gg.2.countP (fun w => decide (w.getD [] = p)) else 0)).sum
          + reps.countP (fun r => decide (r.action_version.path = a
              ∧ r.action_version.version.getD [] = p)) := by
  intro reps
  induction reps with
  | nil =>
    intro g
    simp
  | cons r rs ih =>
    intro g
    rw [List.foldl_cons, ih, addToGroup_fetch_count, List.countP_cons]
    by_cases hc : r.action_version.path = a ∧ r.action_version.version.getD [] = p
    · simp [hc]
      omega
    · simp [hc]

/-- C3 amended: resolution work is deduplicated only in the final resolved
mapping, not at the remote: for every enforce run whose resolution phase
succeeds, the number of `git fetch --tags` commands issued from the transient
repository of action path `a` with tag pattern `p*` equals the number of
scanned occurrences whose action path is `a` and whose requested version
(none read as the empty string) is `p` — one remote tag fetch and one tag
resolution per occurrence of the pair, not per distinct pair (the repository
mirror itself is initialized once per distinct action path). -/
theorem enforce_one_fetch_per_occurrence
    (parseDoc : Str → Document) (vle : Str → Str → Bool)
    (world : Str → List (Str × Str)) (contentMap : List (Str × Str))
    (hok : ((resolveAllTags vle world
        (repoRequestedTags (scannedReps parseDoc contentMap))).1.toOption).isSome = true)
    (a p : Str) :
    traceFetchCount (enforce_gha_shas parseDoc vle world contentMap).trace a p
      = (scannedReps parseDoc contentMap).countP
          (fun r => decide (r.action_version.path = a
            ∧ r.action_version.version.getD [] = p)) := by
  cases hl : loadRepsMap parseDoc contentMap with
  | error e =>
    have hempty : scannedReps parseDoc contentMap = [] := by
      unfold scannedReps scannedFileReps
      rw [hl]
      rfl
    have htr : (enforce_gha_shas parseDoc vle world contentMap).trace = [] := by
      unfold enforce_gha_shas
      rw [hl]
    rw [htr, hempty]
    simp [traceFetchCount]
  | ok rm =>
    have hsr : scannedReps parseDoc contentMap = rm.flatMap (fun x => x.2.2) := by
      unfold scannedReps scannedFileReps
      rw [hl]
      rfl
    rw [hsr] at hok ⊢
    obtain ⟨ms, hms⟩ : ∃ ms, (resolveAllTags vle world
        (repoRequestedTags (rm.flatMap (fun x => x.2.2)))).1 = .ok ms := by
      cases hq : (resolveAllTags vle world
          (repoRequestedTags (rm.flatMap (fun x => x.2.2)))).1 with
      | error e =>
        rw [hq] at hok
        simp [Except.toOption] at hok
      | ok ms => exact ⟨ms, rfl⟩
    have htr : (enforce_gha_shas parseDoc vle world contentMap).trace
        = (resolveAllTags vle world (repoRequestedTags (rm.flatMap fun e => e.2.2))).2 := by
      unfold enforce_gha_shas
      rw [hl]
      simp only []
      rw [hms]
      simp only []
      cases hw : (writeLoop ms rm).1 with
      | error e2 => rfl
      | ok u => rfl
    unfold traceFetchCount
    rw [htr]
    rw [resolveAllTags_trace_fetch_count vle world a p _ ms hms]
    unfold repoRequestedTags
    rw [repoRequestedTags_fetch_count]
    simp

/-- C3 amended witness: the two-file `a/b@v1` run has a successful resolution
phase, and its fetch count for the pair equals the occurrence count (two). -/
theorem enforce_one_fetch_per_occurrence_witness :
    traceFetchCount (enforce_gha_shas (fun _ => docV1) vleAny worldV1
        [("f1".data, "c".data), ("f2".data, "c".data)]).trace "a/b".data "v1".data
      = (scannedReps (fun _ => docV1) [("f1".data, "c".data), ("f2".data, "c".data)]).countP
          (fun r => decide (r.action_version.path = "a/b".data
            ∧ r.action_version.version.getD [] = "v1".data)) :=
  enforce_one_fetch_per_occurrence (fun _ => docV1) vleAny worldV1
    [("f1".data, "c".data), ("f2".data, "c".data)] (by decide) "a/b".data "v1".data
